import Mathlib

/-!
# Connect Four engine: shallow embedding and verification

This file gives a shallow embedding of the Connect Four computer-opponent
core (`computer.go`): the board model (`GameBoard`, `getValidColumns`,
`isBoardFull`, `checkWin`, `dropPiece`, `isTerminalNode`), the static
evaluator (`evaluateSegment`, `evaluateLines`, `evaluateBoard`), and the
minimax search with alpha-beta pruning (`minimax`, `getComputerMove`),
together with theorems settling the specification claims.

Modelling conventions:
* Go's `GameBoard` is `[6][7]int`; we embed it as a total function
  `Nat → Nat → Int`.  Go arrays are passed by value, so every Go function
  receives its own copy; pure Lean functions capture this directly.
* Go `float64` scores in the search take only the values `±Inf` and
  `float64(n)` for small integers `n` (exactly representable), compared
  and combined only via `>`, `<`, `>=`, `math.Max`, `math.Min`; no rounding
  or NaN can occur, so the score type is embedded as the linearly ordered
  `WithBot (WithTop Int)` with `⊥` for `-Inf` and `⊤` for `+Inf`.
* `rand.Intn n` (used only for the tie-break initialisation of the chosen
  column) returns an arbitrary value in `[0, n)`.  The search is
  parametrised by a choice function `c : List Nat → Nat` giving the index
  chosen for each list of valid columns; theorems about the returned
  column assume `c l < l.length` for nonempty `l`, which is exactly the
  guarantee `rand.Intn` provides.
-/

namespace ConnectFour

/-- `Rows = 6` from the Go constant block. -/
def Rows : Nat := 6

/-- `Columns = 7` from the Go constant block. -/
def Columns : Nat := 7

/-- Cell value `Empty = 0`. -/
def Empty : Int := 0

/-- Cell value `Player = 1` (the human). -/
def Player : Int := 1

/-- Cell value `Computer = 2`. -/
def Computer : Int := 2

/-- A board: cell at row `r` (0 = top), column `c`.  The Go type is
`[Rows][Columns]int`; only indices `r < 6`, `c < 7` are ever read. -/
abbrev GameBoard := Nat → Nat → Int

/-- `evaluateSegment` from `computer.go`: score a length-4 segment for
`player` by counting cells equal to `player` and (else-if) cells equal to
`Empty`. -/
def evaluateSegment (segment : List Int) (player : Int) : Int :=
  let countPlayer := segment.countP (fun cell => cell == player)
  let countEmpty := segment.countP (fun cell => !(cell == player) && (cell == Empty))
  if countPlayer = 4 then 100
  else if countPlayer = 3 ∧ countEmpty = 1 then 10
  else if countPlayer = 2 ∧ countEmpty = 2 then 5
  else 0

/-- The horizontal segment of the board starting at `(row, col)`:
`board[row][col:col+4]`. -/
def hSeg (board : GameBoard) (row col : Nat) : List Int :=
  [board row col, board row (col+1), board row (col+2), board row (col+3)]

/-- The vertical segment starting at `(row, col)`. -/
def vSeg (board : GameBoard) (row col : Nat) : List Int :=
  [board row col, board (row+1) col, board (row+2) col, board (row+3) col]

/-- The top-left-to-bottom-right diagonal segment starting at `(row, col)`. -/
def d1Seg (board : GameBoard) (row col : Nat) : List Int :=
  [board row col, board (row+1) (col+1), board (row+2) (col+2), board (row+3) (col+3)]

/-- The bottom-left-to-top-right diagonal segment starting at `(row, col)`
(with `row ≥ 3`). -/
def d2Seg (board : GameBoard) (row col : Nat) : List Int :=
  [board row col, board (row-1) (col+1), board (row-2) (col+2), board (row-3) (col+3)]

/-- `evaluateLines` from `computer.go`: sum the segment scores for `player`
over the four orientations, with the same loop ranges as the Go code. -/
def evaluateLines (board : GameBoard) (player : Int) : Int :=
  ((List.range Rows).map (fun row =>
    ((List.range (Columns-3)).map (fun col => evaluateSegment (hSeg board row col) player)).sum)).sum
  + ((List.range Columns).map (fun col =>
    ((List.range (Rows-3)).map (fun row => evaluateSegment (vSeg board row col) player)).sum)).sum
  + ((List.range (Rows-3)).map (fun row =>
    ((List.range (Columns-3)).map (fun col => evaluateSegment (d1Seg board row col) player)).sum)).sum
  + ((List.range (Rows-3)).map (fun i =>
    ((List.range (Columns-3)).map (fun col => evaluateSegment (d2Seg board (i+3) col) player)).sum)).sum

/-- `evaluateBoard` from `computer.go`: computer-perspective lines minus
player-perspective lines. -/
def evaluateBoard (board : GameBoard) : Int :=
  evaluateLines board Computer - evaluateLines board Player

/-- `checkWin` from `computer.go`: scan the four orientations for four
consecutive cells equal to `player`, with the same loop ranges as Go. -/
def checkWin (board : GameBoard) (player : Int) : Bool :=
  ((List.range Rows).any (fun row => (List.range (Columns-3)).any (fun col =>
    board row col == player && board row (col+1) == player &&
    board row (col+2) == player && board row (col+3) == player)))
  || ((List.range Columns).any (fun col => (List.range (Rows-3)).any (fun row =>
    board row col == player && board (row+1) col == player &&
    board (row+2) col == player && board (row+3) col == player)))
  || ((List.range (Rows-3)).any (fun row => (List.range (Columns-3)).any (fun col =>
    board row col == player && board (row+1) (col+1) == player &&
    board (row+2) (col+2) == player && board (row+3) (col+3) == player)))
  || ((List.range (Rows-3)).any (fun i => (List.range (Columns-3)).any (fun col =>
    board (i+3) col == player && board (i+3-1) (col+1) == player &&
    board (i+3-2) (col+2) == player && board (i+3-3) (col+3) == player)))

/-- `isBoardFull` from `computer.go`: no top-row cell is `Empty`. -/
def isBoardFull (board : GameBoard) : Bool :=
  (List.range Columns).all (fun col => !(board 0 col == Empty))

/-- `isTerminalNode` from `computer.go`. -/
def isTerminalNode (board : GameBoard) : Bool :=
  checkWin board Player || checkWin board Computer || isBoardFull board

/-- `getValidColumns` from `computer.go`: ascending list of columns whose
top cell is `Empty`. -/
def getValidColumns (board : GameBoard) : List Nat :=
  (List.range Columns).filter (fun col => board 0 col == Empty)

/-- The row where a piece dropped in `col` lands: the Go loop scans rows
`5, 4, …, 0` and stops at the first `Empty` cell (`none` if the column is
full, in which case the Go loop falls through without writing). -/
def findDropRow (board : GameBoard) (col : Nat) : Option Nat :=
  (List.range Rows).reverse.find? (fun row => board row col == Empty)

/-- `dropPiece` from `computer.go`: write `player` into the lowest `Empty`
row of `col` (no write if the column is full), returning the new board. -/
def dropPiece (board : GameBoard) (col : Nat) (player : Int) : GameBoard :=
  match findDropRow board col with
  | some row => fun r c => if r = row ∧ c = col then player else board r c
  | none => board

/-- The score type of the search: Go `float64` restricted to the values
that actually occur (`-Inf`, exact small integers, `+Inf`), with its
linear order.  `⊥` is `math.Inf(-1)`, `⊤` is `math.Inf(1)`. -/
abbrev Score := WithBot (WithTop Int)

/-- `float64(n)` for an integer `n` (exact for all scores produced by
`evaluateBoard`). -/
def toScore (n : Int) : Score := ((n : WithTop Int) : Score)

/-- The terminal branch of `minimax`: sentinel column `-1` and `+Inf`,
`-Inf` or `0` according to which terminal condition holds (computer win
checked first). -/
def terminalPair (board : GameBoard) : Int × Score :=
  if checkWin board Computer then (-1, ⊤)
  else if checkWin board Player then (-1, ⊥)
  else (-1, toScore 0)

/-- The body of the Go `for _, col := range validColumns` loop in the
maximizing branch of `minimax`.  `mm` is the recursive call at the next
depth (with `maximizingPlayer = false`); `alpha`, `value`, `column` are
the loop variables; the `beta ≤ alpha` test is Go's `alpha >= beta` break. -/
def maxLoop (mm : GameBoard → Score → Score → Int × Score) (board : GameBoard) :
    List Nat → Score → Score → Score → Int → Int × Score
  | [], _alpha, _beta, value, column => (column, value)
  | col :: rest, alpha, beta, value, column =>
    let newScore := (mm (dropPiece board col Computer) alpha beta).2
    let value' := if value < newScore then newScore else value
    let column' := if value < newScore then (col : Int) else column
    let alpha' := max alpha value'
    if beta ≤ alpha' then (column', value')
    else maxLoop mm board rest alpha' beta value' column'

/-- The body of the minimizing-branch loop of `minimax`; dual of
`maxLoop` (drops a `Player` piece, minimizes, updates `beta`). -/
def minLoop (mm : GameBoard → Score → Score → Int × Score) (board : GameBoard) :
    List Nat → Score → Score → Score → Int → Int × Score
  | [], _alpha, _beta, value, column => (column, value)
  | col :: rest, alpha, beta, value, column =>
    let newScore := (mm (dropPiece board col Player) alpha beta).2
    let value' := if newScore < value then newScore else value
    let column' := if newScore < value then (col : Int) else column
    let beta' := min beta value'
    if beta' ≤ alpha then (column', value')
    else minLoop mm board rest alpha beta' value' column'

/-- `minimax` from `computer.go`, parametrised by the random-index
function `c` (`c l` stands for `rand.Intn l.length` at a node whose valid
columns are `l`).  The Go guard `depth == 0 || isTerminal` is split over
the two `depth` cases: at `0` both subcases of the guard apply, at
`d+1` only the terminal subcase does, else the recursive step runs. -/
def minimax (c : List Nat → Nat) : Nat → GameBoard → Score → Score → Bool → Int × Score
  | 0, board, _alpha, _beta, _maximizingPlayer =>
    if isTerminalNode board then terminalPair board
    else (-1, toScore (evaluateBoard board))
  | depth+1, board, alpha, beta, maximizingPlayer =>
    if isTerminalNode board then terminalPair board
    else
      let validColumns := getValidColumns board
      if maximizingPlayer then
        maxLoop (fun b a bt => minimax c depth b a bt false) board validColumns
          alpha beta ⊥ ((validColumns.getD (c validColumns) 0 : Nat) : Int)
      else
        minLoop (fun b a bt => minimax c depth b a bt true) board validColumns
          alpha beta ⊤ ((validColumns.getD (c validColumns) 0 : Nat) : Int)

/-- `getComputerMove` from `computer.go` (the `rand.Seed` call only
re-seeds the generator modelled by `c`). -/
def getComputerMove (c : List Nat → Nat) (board : GameBoard) (depth : Nat) : Int :=
  (minimax c depth board ⊥ ⊤ true).1

/-! ### Specification-side definitions

These follow the spec's words, to be compared with the definitions
embedded from the source. -/

/-- Spec-side segment score for one perspective: a segment containing any
opposing-player cell contributes 0; otherwise 100 / 10 / 5 / 0 by the
count of the player's cells and of `Empty` cells. -/
def segScoreSpec (segment : List Int) (player : Int) : Int :=
  if segment.any (fun cell => !(cell == player) && !(cell == Empty)) then 0
  else if segment.count player = 4 then 100
  else if segment.count player = 3 ∧ segment.count Empty = 1 then 10
  else if segment.count player = 2 ∧ segment.count Empty = 2 then 5
  else 0

/-- Spec-side enumeration of all length-4 segments of the board:
horizontal, vertical, then the two diagonal directions. -/
def allSegments (board : GameBoard) : List (List Int) :=
  ((List.range Rows).flatMap (fun row =>
    (List.range (Columns-3)).map (fun col => hSeg board row col)))
  ++ ((List.range Columns).flatMap (fun col =>
    (List.range (Rows-3)).map (fun row => vSeg board row col)))
  ++ ((List.range (Rows-3)).flatMap (fun row =>
    (List.range (Columns-3)).map (fun col => d1Seg board row col)))
  ++ ((List.range (Rows-3)).flatMap (fun i =>
    (List.range (Columns-3)).map (fun col => d2Seg board (i+3) col)))

/-- Spec-side unpruned full minimax: same terminal and cutoff scores as
`minimax`, but the children are combined with plain `max`/`min` over all
valid columns, with no alpha-beta window. -/
def fullScore : Nat → GameBoard → Bool → Score
  | 0, board, _ =>
    if isTerminalNode board then (terminalPair board).2
    else toScore (evaluateBoard board)
  | depth+1, board, maximizingPlayer =>
    if isTerminalNode board then (terminalPair board).2
    else
      if maximizingPlayer then
        (getValidColumns board).foldl
          (fun v col => max v (fullScore depth (dropPiece board col Computer) false)) ⊥
      else
        (getValidColumns board).foldl
          (fun v col => min v (fullScore depth (dropPiece board col Player) true)) ⊤

/-- Swap the two players' marks in a cell, leaving `Empty` (and any other
value) unchanged. -/
def swapCell (x : Int) : Int :=
  if x = Player then Computer else if x = Computer then Player else x

/-- The board with the two players' pieces exchanged. -/
def swapBoard (board : GameBoard) : GameBoard :=
  fun r c => swapCell (board r c)

/-- Number of non-`Empty` cells of the 6×7 grid. -/
def nonEmptyCount (board : GameBoard) : Nat :=
  ((List.range Rows).map (fun r =>
    ((List.range Columns).map (fun c => if board r c = Empty then 0 else 1)).sum)).sum

/-! ### Board-model lemmas -/

lemma mem_getValidColumns {board : GameBoard} {col : Nat} :
    col ∈ getValidColumns board ↔ col < 7 ∧ board 0 col = Empty := by
  simp [getValidColumns, List.mem_filter, List.mem_range, Columns, and_comm]

lemma getValidColumns_sorted (board : GameBoard) :
    List.Sorted (· < ·) (getValidColumns board) :=
  List.Pairwise.filter _ (List.sorted_lt_range 7)

lemma isBoardFull_iff {board : GameBoard} :
    isBoardFull board = true ↔ ∀ col, col < 7 → board 0 col ≠ Empty := by
  simp [isBoardFull, List.all_eq_true, List.mem_range, Columns]

lemma getValidColumns_eq_nil_iff {board : GameBoard} :
    getValidColumns board = [] ↔ isBoardFull board = true := by
  rw [List.eq_nil_iff_forall_not_mem, isBoardFull_iff]
  constructor
  · intro h col hlt he
    exact h col (mem_getValidColumns.2 ⟨hlt, he⟩)
  · intro h col hm
    rcases mem_getValidColumns.1 hm with ⟨hlt, he⟩
    exact h col hlt he

/-- The row where `dropPiece` writes (junk value `0` for a full column);
used only to state theorems. -/
def dropRow (board : GameBoard) (col : Nat) : Nat :=
  (findDropRow board col).getD 0

lemma find?_reverse_range_none {p : Nat → Bool} {n : Nat}
    (h : ∀ i, i < n → p i = false) : (List.range n).reverse.find? p = none := by
  rw [List.find?_eq_none]
  intro a ha
  rw [List.mem_reverse, List.mem_range] at ha
  simp [h a ha]

lemma find?_reverse_range_some {p : Nat → Bool} {n k : Nat} (hk : k < n)
    (hpk : p k = true) (hup : ∀ i, k < i → i < n → p i = false) :
    (List.range n).reverse.find? p = some k := by
  induction n with
  | zero => omega
  | succ n ih =>
    rw [List.range_succ, List.reverse_append]
    by_cases hkn : k = n
    · subst hkn
      simp [List.find?, hpk]
    · have hpn : p n = false := hup n (by omega) (by omega)
      simp only [List.reverse_cons, List.reverse_nil, List.nil_append, List.cons_append,
        List.find?]
      rw [hpn]
      exact ih (by omega) (fun i hi1 hi2 => hup i hi1 (by omega))

lemma findDropRow_of_full {board : GameBoard} {col : Nat}
    (h : ∀ r, r < 6 → board r col ≠ Empty) : findDropRow board col = none := by
  refine find?_reverse_range_none (fun i hi => ?_)
  simpa using h i hi

lemma findDropRow_of_valid {board : GameBoard} {col m : Nat}
    (hm6 : m < 6) (hm : board m col = Empty) :
    ∃ row, findDropRow board col = some row ∧ row < 6 ∧ board row col = Empty ∧
      ∀ r, row < r → r < 6 → board r col ≠ Empty := by
  have hR : Rows = 6 := rfl
  have hspec : board (Nat.findGreatest (fun r => board r col = Empty) 5) col = Empty :=
    Nat.findGreatest_spec (P := fun r => board r col = Empty) (by omega) hm
  have hb : Nat.findGreatest (fun r => board r col = Empty) 5 ≤ 5 :=
    Nat.findGreatest_le 5
  refine ⟨Nat.findGreatest (fun r => board r col = Empty) 5, ?_, by omega, hspec, ?_⟩
  · unfold findDropRow
    refine find?_reverse_range_some (by omega) (by simpa using hspec) ?_
    intro i hi1 hi2
    have hni : ¬ board i col = Empty := Nat.findGreatest_is_greatest hi1 (by omega)
    simpa using hni
  · intro r hr1 hr2
    exact Nat.findGreatest_is_greatest hr1 (by omega)

lemma dropPiece_of_full {board : GameBoard} {col : Nat} (player : Int)
    (h : ∀ r, r < 6 → board r col ≠ Empty) : dropPiece board col player = board := by
  rw [dropPiece, findDropRow_of_full h]

lemma sum_map_range_add_one {f g : Nat → Nat} {n k : Nat} (hk : k < n)
    (heq : ∀ i, i < n → i ≠ k → g i = f i) (hkk : g k = f k + 1) :
    ((List.range n).map g).sum = ((List.range n).map f).sum + 1 := by
  induction n with
  | zero => omega
  | succ n ih =>
    rw [List.range_succ, List.map_append, List.map_append, List.sum_append, List.sum_append]
    by_cases hkn : k = n
    · have hmap : (List.range n).map g = (List.range n).map f := by
        refine List.map_congr_left (fun i hi => ?_)
        rw [List.mem_range] at hi
        exact heq i (by omega) (by omega)
      have hgn : g n = f n + 1 := by rw [← hkn]; exact hkk
      rw [hmap]
      simp [hgn]
      omega
    · have hgn : g n = f n := heq n (by omega) (fun hc => hkn hc.symm)
      rw [ih (by omega) (fun i hi hne => heq i (by omega) hne)]
      simp [hgn]
      omega

lemma sum_map_range_congr {f g : Nat → Nat} {n : Nat}
    (heq : ∀ i, i < n → g i = f i) :
    ((List.range n).map g).sum = ((List.range n).map f).sum := by
  refine congrArg List.sum (List.map_congr_left (fun i hi => ?_))
  rw [List.mem_range] at hi
  exact heq i hi

/-! ### Concrete boards used as witness inputs -/

/-- The all-`Empty` board. -/
def boardEmpty : GameBoard := fun _ _ => Empty

/-- A board whose column 0 is full (alternating pieces), all else `Empty`. -/
def boardCol0Full : GameBoard := fun r c =>
  if c = 0 then (if r % 2 = 0 then Player else Computer) else Empty

/-- A board where the computer has already won (vertical four in column 0,
rows 2–5) while plenty of columns are still open. -/
def boardComputerWon : GameBoard := fun r c =>
  if c = 0 ∧ 2 ≤ r then Computer else Empty

/-! ### Theorems for the claims about the board model -/

/-- C8: `getValidColumns` is the strictly ascending list of exactly the
columns whose top (row 0) cell is `Empty`; it is empty iff `isBoardFull`,
and `isBoardFull` holds iff all seven top cells are non-`Empty`. -/
theorem getValidColumns_spec (board : GameBoard) :
    List.Sorted (· < ·) (getValidColumns board) ∧
    (∀ col, col ∈ getValidColumns board ↔ (col < 7 ∧ board 0 col = Empty)) ∧
    (getValidColumns board = [] ↔ isBoardFull board = true) ∧
    (isBoardFull board = true ↔ ∀ col, col < 7 → board 0 col ≠ Empty) :=
  ⟨getValidColumns_sorted board, fun _ => mem_getValidColumns,
    getValidColumns_eq_nil_iff, isBoardFull_iff⟩

/-- C10: on a full column, `dropPiece` returns the input board completely
unchanged (the Go loop finds no `Empty` cell and never writes). -/
theorem dropPiece_fullColumn_unchanged (board : GameBoard) (col : Nat) (player : Int)
    (h : ∀ r, r < 6 → board r col ≠ Empty) :
    dropPiece board col player = board :=
  dropPiece_of_full player h

/-- Witness for `dropPiece_fullColumn_unchanged` at a concrete full column. -/
theorem dropPiece_fullColumn_unchanged_witness :
    dropPiece boardCol0Full 0 Computer = boardCol0Full :=
  dropPiece_fullColumn_unchanged boardCol0Full 0 Computer (by decide)

/-- Counterexample to C6 as stated: calling `dropPiece` on the full
column 0 of `boardCol0Full` does not fail — it evaluates normally and
returns the board unchanged. -/
theorem dropPiece_fullColumn_no_failure :
    dropPiece boardCol0Full 0 Player = boardCol0Full := rfl

/-- C6 (amended): `dropPiece` never raises an error; it returns its input
unchanged exactly when the requested column is full. -/
theorem dropPiece_unchanged_iff_full (board : GameBoard) (col : Nat) (player : Int)
    (hp : player ≠ Empty) :
    dropPiece board col player = board ↔ ∀ r, r < 6 → board r col ≠ Empty := by
  constructor
  · intro hEq
    by_contra hnot
    push_neg at hnot
    obtain ⟨m, hm6, hmE⟩ := hnot
    obtain ⟨row, hfind, hrow6, hrowE, _⟩ := findDropRow_of_valid hm6 hmE
    have hcell : dropPiece board col player row col = player := by
      rw [dropPiece, hfind]
      simp
    rw [hEq] at hcell
    exact hp (hcell ▸ hrowE)
  · exact dropPiece_of_full player

/-- Witness for `dropPiece_unchanged_iff_full` at a concrete input. -/
theorem dropPiece_unchanged_iff_full_witness :
    dropPiece boardEmpty 1 Computer = boardEmpty ↔
      ∀ r, r < 6 → boardEmpty r 1 ≠ Empty :=
  dropPiece_unchanged_iff_full boardEmpty 1 Computer (by decide)

/-- C5: dropping `player` into a column with an `Empty` top cell writes
`player` into the lowest `Empty` row of that column, leaves every other
cell unchanged, and increases the number of non-`Empty` cells by exactly
one.  (The input board, a pure value, is of course unmodified.) -/
theorem dropPiece_spec (board : GameBoard) (col : Nat) (player : Int)
    (hcol : col < 7) (hp : player ≠ Empty) (hvalid : board 0 col = Empty) :
    dropRow board col < 6 ∧ board (dropRow board col) col = Empty ∧
    (∀ r, dropRow board col < r → r < 6 → board r col ≠ Empty) ∧
    dropPiece board col player (dropRow board col) col = player ∧
    (∀ r c, ¬(r = dropRow board col ∧ c = col) →
      dropPiece board col player r c = board r c) ∧
    nonEmptyCount (dropPiece board col player) = nonEmptyCount board + 1 := by
  obtain ⟨row, hfind, hrow6, hrowE, hup⟩ :=
    findDropRow_of_valid (show (0:Nat) < 6 by omega) hvalid
  have hdr : dropRow board col = row := by rw [dropRow, hfind]; rfl
  have hdp : dropPiece board col player =
      fun r c => if r = row ∧ c = col then player else board r c := by
    rw [dropPiece, hfind]
  rw [hdr, hdp]
  refine ⟨hrow6, hrowE, hup, by simp, ?_, ?_⟩
  · intro r c hne
    exact if_neg hne
  · show ((List.range Rows).map _).sum = ((List.range Rows).map _).sum + 1
    refine sum_map_range_add_one (show row < Rows from hrow6) ?_ ?_
    · intro i _ hine
      refine sum_map_range_congr (fun j _ => ?_)
      have hni : ¬(i = row ∧ j = col) := fun hc => hine hc.1
      simp [hni]
    · refine sum_map_range_add_one (show col < Columns from hcol) ?_ ?_
      · intro j _ hjne
        simp [hjne]
      · simp [hp, hrowE]

/-- Witness for `dropPiece_spec`: dropping into the empty board's column 0
lands in row 5 and adds one piece. -/
theorem dropPiece_spec_witness :
    dropPiece boardEmpty 0 Player 5 0 = Player ∧
    nonEmptyCount (dropPiece boardEmpty 0 Player) = nonEmptyCount boardEmpty + 1 :=
  ⟨(dropPiece_spec boardEmpty 0 Player (by decide) (by decide) rfl).2.2.2.1,
   (dropPiece_spec boardEmpty 0 Player (by decide) (by decide) rfl).2.2.2.2.2⟩

/-- C7: `checkWin` is true iff some row, column, or diagonal (in either
direction) contains four consecutive cells equal to `player`. -/
theorem checkWin_iff (board : GameBoard) (player : Int) :
    checkWin board player = true ↔
      (∃ row col, row < 6 ∧ col + 3 < 7 ∧
        board row col = player ∧ board row (col+1) = player ∧
        board row (col+2) = player ∧ board row (col+3) = player) ∨
      (∃ row col, row + 3 < 6 ∧ col < 7 ∧
        board row col = player ∧ board (row+1) col = player ∧
        board (row+2) col = player ∧ board (row+3) col = player) ∨
      (∃ row col, row + 3 < 6 ∧ col + 3 < 7 ∧
        board row col = player ∧ board (row+1) (col+1) = player ∧
        board (row+2) (col+2) = player ∧ board (row+3) (col+3) = player) ∨
      (∃ row col, 3 ≤ row ∧ row < 6 ∧ col + 3 < 7 ∧
        board row col = player ∧ board (row-1) (col+1) = player ∧
        board (row-2) (col+2) = player ∧ board (row-3) (col+3) = player) := by
  rw [checkWin]
  simp only [Rows, Columns, Bool.or_eq_true, List.any_eq_true, List.mem_range,
    Bool.and_eq_true, beq_iff_eq]
  constructor
  · rintro (((⟨r, hr, c, hc, ⟨⟨h1, h2⟩, h3⟩, h4⟩ | ⟨c, hc, r, hr, ⟨⟨h1, h2⟩, h3⟩, h4⟩) |
      ⟨r, hr, c, hc, ⟨⟨h1, h2⟩, h3⟩, h4⟩) | ⟨i, hi, c, hc, ⟨⟨h1, h2⟩, h3⟩, h4⟩)
    · exact Or.inl ⟨r, c, by omega, by omega, h1, h2, h3, h4⟩
    · exact Or.inr (Or.inl ⟨r, c, by omega, by omega, h1, h2, h3, h4⟩)
    · exact Or.inr (Or.inr (Or.inl ⟨r, c, by omega, by omega, h1, h2, h3, h4⟩))
    · exact Or.inr (Or.inr (Or.inr ⟨i + 3, c, by omega, by omega, by omega,
        h1, h2, h3, h4⟩))
  · rintro (⟨r, c, hr, hc, h1, h2, h3, h4⟩ | ⟨r, c, hr, hc, h1, h2, h3, h4⟩ |
      ⟨r, c, hr, hc, h1, h2, h3, h4⟩ | ⟨r, c, hr3, hr, hc, h1, h2, h3, h4⟩)
    · exact Or.inl (Or.inl (Or.inl ⟨r, by omega, c, by omega, ⟨⟨h1, h2⟩, h3⟩, h4⟩))
    · exact Or.inl (Or.inl (Or.inr ⟨c, by omega, r, by omega, ⟨⟨h1, h2⟩, h3⟩, h4⟩))
    · exact Or.inl (Or.inr ⟨r, by omega, c, by omega, ⟨⟨h1, h2⟩, h3⟩, h4⟩)
    · refine Or.inr ⟨r - 3, by omega, c, by omega, ?_⟩
      rw [show r - 3 + 3 = r by omega]
      exact ⟨⟨⟨h1, h2⟩, h3⟩, h4⟩

lemma sum_map_range_congr_int {f g : Nat → Int} {n : Nat}
    (heq : ∀ i, i < n → f i = g i) :
    ((List.range n).map f).sum = ((List.range n).map g).sum := by
  refine congrArg List.sum (List.map_congr_left (fun i hi => ?_))
  rw [List.mem_range] at hi
  exact heq i hi

lemma swapCell_beq_computer (x : Int) : (swapCell x == Computer) = (x == Player) := by
  by_cases h1 : x = Player
  · norm_num [swapCell, h1, Player, Computer]
  · by_cases h2 : x = Computer
    · norm_num [swapCell, h1, h2, Player, Computer]
    · simp [swapCell, h1, h2]

lemma swapCell_beq_player (x : Int) : (swapCell x == Player) = (x == Computer) := by
  by_cases h1 : x = Player
  · norm_num [swapCell, h1, Player, Computer]
  · by_cases h2 : x = Computer
    · norm_num [swapCell, h1, h2, Player, Computer]
    · simp [swapCell, h1, h2]

lemma swapCell_beq_empty (x : Int) : (swapCell x == Empty) = (x == Empty) := by
  by_cases h1 : x = Player
  · norm_num [swapCell, h1, Player, Computer, Empty]
  · by_cases h2 : x = Computer
    · norm_num [swapCell, h1, h2, Player, Computer, Empty]
    · simp [swapCell, h1, h2]

lemma evaluateSegment_map_swap (seg : List Int) (p q : Int)
    (hpq : ∀ x, (swapCell x == p) = (x == q)) :
    evaluateSegment (seg.map swapCell) p = evaluateSegment seg q := by
  unfold evaluateSegment
  have hc1 : (seg.map swapCell).countP (fun cell => cell == p)
      = seg.countP (fun cell => cell == q) := by
    rw [List.countP_map]
    refine List.countP_congr (fun x _ => ?_)
    show (swapCell x == p) = true ↔ (x == q) = true
    rw [hpq x]
  have hc2 : (seg.map swapCell).countP (fun cell => !(cell == p) && (cell == Empty))
      = seg.countP (fun cell => !(cell == q) && (cell == Empty)) := by
    rw [List.countP_map]
    refine List.countP_congr (fun x _ => ?_)
    show (!(swapCell x == p) && (swapCell x == Empty)) = true ↔
      (!(x == q) && (x == Empty)) = true
    rw [hpq x, swapCell_beq_empty x]
  rw [hc1, hc2]

lemma evaluateLines_swap (board : GameBoard) {p q : Int}
    (hpq : ∀ seg : List Int, evaluateSegment (seg.map swapCell) p = evaluateSegment seg q) :
    evaluateLines (swapBoard board) p = evaluateLines board q := by
  have hH : ∀ row col, evaluateSegment (hSeg (swapBoard board) row col) p
      = evaluateSegment (hSeg board row col) q := fun row col => hpq (hSeg board row col)
  have hV : ∀ row col, evaluateSegment (vSeg (swapBoard board) row col) p
      = evaluateSegment (vSeg board row col) q := fun row col => hpq (vSeg board row col)
  have hD1 : ∀ row col, evaluateSegment (d1Seg (swapBoard board) row col) p
      = evaluateSegment (d1Seg board row col) q := fun row col => hpq (d1Seg board row col)
  have hD2 : ∀ row col, 3 ≤ row → evaluateSegment (d2Seg (swapBoard board) row col) p
      = evaluateSegment (d2Seg board row col) q := by
    intro row col h3
    obtain ⟨i, rfl⟩ : ∃ i, row = i + 3 := ⟨row - 3, by omega⟩
    exact hpq (d2Seg board (i+3) col)
  unfold evaluateLines
  refine congrArg₂ (· + ·) (congrArg₂ (· + ·) (congrArg₂ (· + ·) ?_ ?_) ?_) ?_
  · exact sum_map_range_congr_int (fun row _ =>
      sum_map_range_congr_int (fun col _ => hH row col))
  · exact sum_map_range_congr_int (fun col _ =>
      sum_map_range_congr_int (fun row _ => hV row col))
  · exact sum_map_range_congr_int (fun row _ =>
      sum_map_range_congr_int (fun col _ => hD1 row col))
  · exact sum_map_range_congr_int (fun i _ =>
      sum_map_range_congr_int (fun col _ => hD2 (i+3) col (by omega)))

/-- C9: swapping the two players' pieces negates the evaluator. -/
theorem evaluateBoard_swap (board : GameBoard) :
    evaluateBoard (swapBoard board) = - evaluateBoard board := by
  have hCP : evaluateLines (swapBoard board) Computer = evaluateLines board Player :=
    evaluateLines_swap board (fun seg =>
      evaluateSegment_map_swap seg Computer Player swapCell_beq_computer)
  have hPC : evaluateLines (swapBoard board) Player = evaluateLines board Computer :=
    evaluateLines_swap board (fun seg =>
      evaluateSegment_map_swap seg Player Computer swapCell_beq_player)
  rw [evaluateBoard, evaluateBoard, hCP, hPC]
  ring

lemma countP_tri {α : Type} (p q : α → Bool) (l : List α) :
    l.countP p + l.countP (fun x => !(p x) && q x)
      + l.countP (fun x => !(p x) && !(q x)) = l.length := by
  induction l with
  | nil => simp
  | cons a t ih =>
    by_cases hp : p a <;> by_cases hq : q a <;>
      simp [List.countP_cons, hp, hq] <;> omega

lemma evaluateSegment_eq_spec (s : List Int) (p : Int)
    (hp : p ≠ Empty) (hlen : s.length = 4) :
    evaluateSegment s p = segScoreSpec s p := by
  have htri := countP_tri (fun x => x == p) (fun x => x == Empty) s
  rw [hlen] at htri
  by_cases hg : s.any (fun x => !(x == p) && !(x == Empty)) = true
  · have hpos : 0 < s.countP (fun x => !(x == p) && !(x == Empty)) := by
      rw [List.countP_pos_iff]
      rw [List.any_eq_true] at hg
      exact hg
    rw [segScoreSpec, if_pos hg, evaluateSegment]
    have hle : s.countP (fun x => x == p)
        + s.countP (fun x => !(x == p) && (x == Empty)) ≤ 3 := by omega
    split_ifs with h1 h2 h3 <;> omega
  · have hcp : s.count p = s.countP (fun x => x == p) := rfl
    have hce : s.count Empty = s.countP (fun x => !(x == p) && (x == Empty)) := by
      show s.countP (fun x => x == Empty) = _
      refine List.countP_congr (fun x _ => ?_)
      constructor
      · intro hx
        have hxe : x = Empty := by simpa using hx
        subst hxe
        have hne : ¬(Empty = p) := fun hc => hp hc.symm
        simp [hne]
      · intro hx
        rw [Bool.and_eq_true] at hx
        exact hx.2
    rw [segScoreSpec, if_neg hg, evaluateSegment, hcp, hce]

lemma sum_map_sub {α : Type} (l : List α) (f g : α → Int) :
    (l.map (fun s => f s - g s)).sum = (l.map f).sum - (l.map g).sum := by
  induction l with
  | nil => simp
  | cons a t ih =>
    simp only [List.map_cons, List.sum_cons, ih]
    ring

lemma sum_map_flatMap {α β : Type} (l : List α) (g : α → List β) (f : β → Int) :
    ((l.flatMap g).map f).sum = (l.map (fun a => ((g a).map f).sum)).sum := by
  induction l with
  | nil => simp
  | cons a t ih =>
    simp only [List.flatMap_cons, List.map_append, List.sum_append, List.map_cons,
      List.sum_cons, ih]

lemma evaluateLines_eq_spec (board : GameBoard) (p : Int) (hp : p ≠ Empty) :
    evaluateLines board p = ((allSegments board).map (fun s => segScoreSpec s p)).sum := by
  rw [allSegments, List.map_append, List.map_append, List.map_append,
    List.sum_append, List.sum_append, List.sum_append,
    sum_map_flatMap, sum_map_flatMap, sum_map_flatMap, sum_map_flatMap,
    evaluateLines]
  refine congrArg₂ (· + ·) (congrArg₂ (· + ·) (congrArg₂ (· + ·) ?_ ?_) ?_) ?_
  · refine sum_map_range_congr_int (fun row _ => ?_)
    rw [List.map_map]
    exact sum_map_range_congr_int (fun col _ =>
      evaluateSegment_eq_spec (hSeg board row col) p hp rfl)
  · refine sum_map_range_congr_int (fun col _ => ?_)
    rw [List.map_map]
    exact sum_map_range_congr_int (fun row _ =>
      evaluateSegment_eq_spec (vSeg board row col) p hp rfl)
  · refine sum_map_range_congr_int (fun row _ => ?_)
    rw [List.map_map]
    exact sum_map_range_congr_int (fun col _ =>
      evaluateSegment_eq_spec (d1Seg board row col) p hp rfl)
  · refine sum_map_range_congr_int (fun i _ => ?_)
    rw [List.map_map]
    exact sum_map_range_congr_int (fun col _ =>
      evaluateSegment_eq_spec (d2Seg board (i+3) col) p hp rfl)

/-- C3: the evaluator is the sum, over the explicitly enumerated list of
all 69 length-4 segments (24 horizontal, 21 vertical, 12 per diagonal
direction), of the computer-perspective segment score minus the
player-perspective segment score, where `segScoreSpec` scores 100/10/5/0
by the player's-cell and `Empty`-cell counts and gives 0 to any segment
containing an opposing-player cell. -/
theorem evaluateBoard_spec (board : GameBoard) :
    evaluateBoard board =
      ((allSegments board).map
        (fun s => segScoreSpec s Computer - segScoreSpec s Player)).sum ∧
    (allSegments board).length = 69 := by
  constructor
  · rw [sum_map_sub, evaluateBoard,
      evaluateLines_eq_spec board Computer (by norm_num [Computer, Empty]),
      evaluateLines_eq_spec board Player (by norm_num [Player, Empty])]
  · rfl

/-! ### Alpha-beta pruning versus the full search

`KM a b r g` is the Knuth–Moore relation between the score `r` returned
by a pruned search with window `(a, b)` and the true (unpruned) value
`g`: failing low gives an upper-bound certificate, failing high a
lower-bound certificate, and a score strictly inside the window is
exact. -/
def KM (a b r g : Score) : Prop :=
  (r ≤ a → g ≤ r) ∧ (b ≤ r → r ≤ g) ∧ (a < r → r < b → r = g)

lemma KM_of_eq {a b r g : Score} (h : r = g) : KM a b r g :=
  ⟨fun _ => h.ge, fun _ => h.le, fun _ _ => h⟩

lemma le_foldl_max (h : Nat → Score) :
    ∀ (cols : List Nat) (w : Score), w ≤ cols.foldl (fun v col => max v (h col)) w := by
  intro cols
  induction cols with
  | nil => intro w; exact le_refl w
  | cons col rest ih =>
    intro w
    exact le_trans (le_max_left w (h col)) (ih (max w (h col)))

lemma foldl_min_le (h : Nat → Score) :
    ∀ (cols : List Nat) (w : Score), cols.foldl (fun v col => min v (h col)) w ≤ w := by
  intro cols
  induction cols with
  | nil => intro w; exact le_refl w
  | cons col rest ih =>
    intro w
    exact le_trans (ih (min w (h col))) (min_le_left w (h col))

lemma max_max_absorb (a v s : Score) : max (max a v) (max v s) = max a (max v s) := by
  rw [max_assoc a v (max v s), ← max_assoc v v s, max_self]

lemma min_min_absorb (b v s : Score) : min (min b v) (min v s) = min b (min v s) := by
  rw [min_assoc b v (min v s), ← min_assoc v v s, min_self]

lemma maxLoop_km (mm : GameBoard → Score → Score → Int × Score)
    (t : GameBoard → Score) (board : GameBoard) (alpha0 beta : Score)
    (hab : alpha0 < beta)
    (hmm : ∀ b a, a < beta → KM a beta (mm b a beta).2 (t b)) :
    ∀ (cols : List Nat) (alpha value w : Score) (column : Int),
      alpha = max alpha0 value → alpha < beta →
      KM alpha0 beta value w →
      KM alpha0 beta (maxLoop mm board cols alpha beta value column).2
        (cols.foldl (fun v col => max v (t (dropPiece board col Computer))) w) := by
  intro cols
  induction cols with
  | nil =>
    intro alpha value w column _ _ hKM
    simpa [maxLoop] using hKM
  | cons col rest ih =>
    intro alpha value w column halpha hb hKM
    simp only [maxLoop, List.foldl_cons]
    set s := (mm (dropPiece board col Computer) alpha beta).2 with hs
    set tb := t (dropPiece board col Computer) with htb
    have hchild : KM alpha beta s tb := hmm _ alpha hb
    have hveq : (if value < s then s else value) = max value s := by
      rcases le_or_lt s value with h | h
      · rw [if_neg (not_lt.mpr h), max_eq_left h]
      · rw [if_pos h, max_eq_right h.le]
    rw [hveq]
    have hKM' : KM alpha0 beta (max value s) (max w tb) := by
      obtain ⟨k1, k2, k3⟩ := hKM
      obtain ⟨c1, c2, c3⟩ := hchild
      refine ⟨?_, ?_, ?_⟩
      · intro hle
        have hv : value ≤ alpha0 := le_trans (le_max_left _ _) hle
        have hs0 : s ≤ alpha0 := le_trans (le_max_right value s) hle
        have hsa : s ≤ alpha := by
          rw [halpha]
          exact le_trans hs0 (le_max_left alpha0 value)
        exact max_le_max (k1 hv) (c1 hsa)
      · intro hge
        rcases max_choice value s with hmc | hmc
        · rw [hmc] at hge ⊢
          exact le_trans (k2 hge) (le_max_left w tb)
        · rw [hmc] at hge ⊢
          exact le_trans (c2 hge) (le_max_right w tb)
      · intro hgt hlt
        have hvlt : value < beta := lt_of_le_of_lt (le_max_left value s) hlt
        have hslt : s < beta := lt_of_le_of_lt (le_max_right value s) hlt
        have hwle : w ≤ max value s := by
          rcases le_or_lt value alpha0 with h | h
          · exact le_trans (k1 h) (le_max_left _ _)
          · exact le_trans (k3 h hvlt).symm.le (le_max_left _ _)
        have htble : tb ≤ max value s := by
          rcases le_or_lt s alpha with h | h
          · exact le_trans (c1 h) (le_max_right _ _)
          · exact le_trans (c3 h hslt).symm.le (le_max_right _ _)
        have hle2 : max value s ≤ max w tb := by
          rcases max_choice value s with hmc | hmc
          · rw [hmc] at hgt ⊢
            exact le_trans (k3 hgt hvlt).le (le_max_left _ _)
          · rw [hmc] at hgt ⊢
            rcases le_or_lt s alpha with h | h
            · have hsv : s ≤ value := by
                rcases max_choice alpha0 value with hm2 | hm2
                · exfalso
                  rw [halpha, hm2] at h
                  exact absurd (lt_of_lt_of_le hgt h) (lt_irrefl _)
                · rw [halpha, hm2] at h
                  exact h
              have hvs : value ≤ s := by
                by_contra hc
                push_neg at hc
                rw [max_eq_left hc.le] at hmc
                rw [hmc] at hsv hc
                exact absurd hc (lt_irrefl _)
              have hse : s = value := le_antisymm hsv hvs
              rw [hse] at hgt ⊢
              exact le_trans (k3 hgt hvlt).le (le_max_left _ _)
            · exact le_trans (c3 h hslt).le (le_max_right _ _)
        exact le_antisymm hle2 (max_le hwle htble)
    have halpha' : max alpha (max value s) = max alpha0 (max value s) := by
      rw [halpha]
      exact max_max_absorb alpha0 value s
    by_cases hbr : beta ≤ max alpha (max value s)
    · rw [if_pos hbr]
      have hbv : beta ≤ max value s := by
        rw [halpha'] at hbr
        rcases max_choice alpha0 (max value s) with hm | hm
        · exfalso
          rw [hm] at hbr
          exact absurd (lt_of_lt_of_le hab hbr) (lt_irrefl _)
        · rw [hm] at hbr
          exact hbr
      refine ⟨?_, ?_, ?_⟩
      · intro hle
        exact absurd (lt_of_lt_of_le hab (le_trans hbv hle)) (lt_irrefl _)
      · intro _
        exact le_trans (hKM'.2.1 hbv)
          (le_foldl_max (fun col => t (dropPiece board col Computer)) rest (max w tb))
      · intro _ hlt
        exact absurd (lt_of_lt_of_le hlt hbv) (lt_irrefl _)
    · rw [if_neg hbr]
      exact ih (max alpha (max value s)) (max value s) (max w tb) _
        halpha' (not_le.mp hbr) hKM'

lemma minLoop_km (mm : GameBoard → Score → Score → Int × Score)
    (t : GameBoard → Score) (board : GameBoard) (alpha beta0 : Score)
    (hab : alpha < beta0)
    (hmm : ∀ b bt, alpha < bt → KM alpha bt (mm b alpha bt).2 (t b)) :
    ∀ (cols : List Nat) (beta value w : Score) (column : Int),
      beta = min beta0 value → alpha < beta →
      KM alpha beta0 value w →
      KM alpha beta0 (minLoop mm board cols alpha beta value column).2
        (cols.foldl (fun v col => min v (t (dropPiece board col Player))) w) := by
  intro cols
  induction cols with
  | nil =>
    intro beta value w column _ _ hKM
    simpa [minLoop] using hKM
  | cons col rest ih =>
    intro beta value w column hbeta hb hKM
    simp only [minLoop, List.foldl_cons]
    set s := (mm (dropPiece board col Player) alpha beta).2 with hs
    set tb := t (dropPiece board col Player) with htb
    have hchild : KM alpha beta s tb := hmm _ beta hb
    have hveq : (if s < value then s else value) = min value s := by
      rcases le_or_lt value s with h | h
      · rw [if_neg (not_lt.mpr h), min_eq_left h]
      · rw [if_pos h, min_eq_right h.le]
    rw [hveq]
    have hKM' : KM alpha beta0 (min value s) (min w tb) := by
      obtain ⟨k1, k2, k3⟩ := hKM
      obtain ⟨c1, c2, c3⟩ := hchild
      refine ⟨?_, ?_, ?_⟩
      · intro hle
        rcases min_choice value s with hmc | hmc
        · rw [hmc] at hle ⊢
          exact le_trans (min_le_left w tb) (k1 hle)
        · rw [hmc] at hle ⊢
          exact le_trans (min_le_right w tb) (c1 hle)
      · intro hge
        have hv : beta0 ≤ value := le_trans hge (min_le_left value s)
        have hs0 : beta0 ≤ s := le_trans hge (min_le_right value s)
        have hsb : beta ≤ s := by
          rw [hbeta]
          exact le_trans (min_le_left beta0 value) hs0
        exact min_le_min (k2 hv) (c2 hsb)
      · intro hgt hlt
        have hvgt : alpha < value := lt_of_lt_of_le hgt (min_le_left value s)
        have hsgt : alpha < s := lt_of_lt_of_le hgt (min_le_right value s)
        have hwge : min value s ≤ w := by
          rcases le_or_lt beta0 value with h | h
          · exact le_trans (min_le_left value s) (k2 h)
          · exact le_trans (min_le_left value s) (k3 hvgt h).le
        have htbge : min value s ≤ tb := by
          rcases le_or_lt beta s with h | h
          · exact le_trans (min_le_right value s) (c2 h)
          · exact le_trans (min_le_right value s) (c3 hsgt h).le
        have hle2 : min w tb ≤ min value s := by
          rcases min_choice value s with hmc | hmc
          · rw [hmc] at hlt ⊢
            exact le_trans (min_le_left w tb) (k3 hvgt hlt).symm.le
          · rw [hmc] at hlt ⊢
            rcases le_or_lt beta s with h | h
            · have hvs : value ≤ s := by
                rcases min_choice beta0 value with hm2 | hm2
                · exfalso
                  rw [hbeta, hm2] at h
                  exact absurd (lt_of_le_of_lt h hlt) (lt_irrefl _)
                · rw [hbeta, hm2] at h
                  exact h
              have hsv : s ≤ value := by
                by_contra hc
                push_neg at hc
                rw [min_eq_left hc.le] at hmc
                rw [hmc] at hvs hc
                exact absurd hc (lt_irrefl _)
              have hse : s = value := le_antisymm hsv hvs
              rw [hse] at hlt ⊢
              exact le_trans (min_le_left w tb) (k3 hvgt hlt).symm.le
            · exact le_trans (min_le_right w tb) (c3 hsgt h).symm.le
        exact le_antisymm (le_min hwge htbge) hle2
    have hbeta' : min beta (min value s) = min beta0 (min value s) := by
      rw [hbeta]
      exact min_min_absorb beta0 value s
    by_cases hbr : min beta (min value s) ≤ alpha
    · rw [if_pos hbr]
      have hbv : min value s ≤ alpha := by
        rw [hbeta'] at hbr
        rcases min_choice beta0 (min value s) with hm | hm
        · exfalso
          rw [hm] at hbr
          exact absurd (lt_of_lt_of_le hab hbr) (lt_irrefl _)
        · rw [hm] at hbr
          exact hbr
      refine ⟨?_, ?_, ?_⟩
      · intro _
        exact le_trans
          (foldl_min_le (fun col => t (dropPiece board col Player)) rest (min w tb))
          (hKM'.1 hbv)
      · intro hge
        exact absurd (lt_of_lt_of_le hab (le_trans hge hbv)) (lt_irrefl _)
      · intro hgt _
        exact absurd (lt_of_lt_of_le hgt hbv) (lt_irrefl _)
    · rw [if_neg hbr]
      exact ih (min beta (min value s)) (min value s) (min w tb) _
        hbeta' (not_le.mp hbr) hKM'

lemma minimax_km (c : List Nat → Nat) :
    ∀ (depth : Nat) (board : GameBoard) (alpha beta : Score) (mx : Bool),
      alpha < beta →
      KM alpha beta (minimax c depth board alpha beta mx).2 (fullScore depth board mx) := by
  intro depth
  induction depth with
  | zero =>
    intro board alpha beta mx _
    refine KM_of_eq ?_
    by_cases hT : isTerminalNode board = true <;> simp [minimax, fullScore, hT]
  | succ d ih =>
    intro board alpha beta mx hb
    by_cases hT : isTerminalNode board = true
    · refine KM_of_eq ?_
      simp [minimax, fullScore, hT]
    · cases mx with
      | false =>
        have heq : minimax c (d+1) board alpha beta false =
            minLoop (fun b a bt => minimax c d b a bt true) board (getValidColumns board)
              alpha beta ⊤
              (((getValidColumns board).getD (c (getValidColumns board)) 0 : Nat) : Int) := by
          simp [minimax, hT]
        have hfull : fullScore (d+1) board false =
            (getValidColumns board).foldl
              (fun v col => min v (fullScore d (dropPiece board col Player) true)) ⊤ := by
          simp [fullScore, hT]
        rw [heq, hfull]
        exact minLoop_km (fun b a bt => minimax c d b a bt true)
          (fun b => fullScore d b true) board alpha beta hb
          (fun b bt hbt => ih b alpha bt true hbt)
          (getValidColumns board) beta ⊤ ⊤ _
          (min_eq_left le_top).symm hb
          ⟨fun _ => le_refl ⊤, fun _ => le_refl ⊤, fun _ h => absurd h not_top_lt⟩
      | true =>
        have heq : minimax c (d+1) board alpha beta true =
            maxLoop (fun b a bt => minimax c d b a bt false) board (getValidColumns board)
              alpha beta ⊥
              (((getValidColumns board).getD (c (getValidColumns board)) 0 : Nat) : Int) := by
          simp [minimax, hT]
        have hfull : fullScore (d+1) board true =
            (getValidColumns board).foldl
              (fun v col => max v (fullScore d (dropPiece board col Computer) false)) ⊥ := by
          simp [fullScore, hT]
        rw [heq, hfull]
        exact maxLoop_km (fun b a bt => minimax c d b a bt false)
          (fun b => fullScore d b false) board alpha beta hb
          (fun b a hbt => ih b a beta false hbt)
          (getValidColumns board) alpha ⊥ ⊥ _
          (max_eq_left bot_le).symm hb
          ⟨fun _ => le_refl ⊥, fun h => absurd (lt_of_lt_of_le hb h) not_lt_bot,
            fun h _ => absurd h not_lt_bot⟩

/-- C2: with the full window `(-Inf, +Inf)`, the score computed by the
alpha-beta-pruned `minimax` equals the score of the unpruned full minimax
search `fullScore` of the same board and depth, for both values of
`maximizingPlayer` and for every outcome of the random tie-break. -/
theorem minimax_prune_eq_full (c : List Nat → Nat) (depth : Nat)
    (board : GameBoard) (mx : Bool) :
    (minimax c depth board ⊥ ⊤ mx).2 = fullScore depth board mx := by
  have hbt : (⊥ : Score) < ⊤ := by decide
  obtain ⟨h1, h2, h3⟩ := minimax_km c depth board ⊥ ⊤ mx hbt
  rcases eq_or_ne (minimax c depth board ⊥ ⊤ mx).2 ⊥ with hr | hr
  · have hg := h1 (le_of_eq hr)
    rw [hr] at hg ⊢
    exact (le_bot_iff.mp hg).symm
  · rcases eq_or_ne (minimax c depth board ⊥ ⊤ mx).2 ⊤ with hr2 | hr2
    · have hg := h2 (ge_of_eq hr2)
      rw [hr2] at hg ⊢
      exact (top_le_iff.mp hg).symm
    · exact h3 (bot_lt_iff_ne_bot.mpr hr) (lt_top_iff_ne_top.mpr hr2)

lemma terminalPair_eq {board : GameBoard} (hT : isTerminalNode board = true) :
    terminalPair board =
      (-1, if checkWin board Computer then (⊤ : Score)
        else if checkWin board Player then (⊥ : Score)
        else if isBoardFull board then toScore 0
        else toScore (evaluateBoard board)) := by
  rw [terminalPair]
  by_cases hC : checkWin board Computer = true
  · simp [hC]
  · by_cases hP : checkWin board Player = true
    · simp [hC, hP]
    · have hC' : checkWin board Computer = false := by simpa using hC
      have hP' : checkWin board Player = false := by simpa using hP
      have hF : isBoardFull board = true := by
        rw [isTerminalNode, hC', hP'] at hT
        simpa using hT
      simp [hC', hP', hF]

/-- C4: when the board is terminal or the depth is 0, `minimax` returns
the sentinel column `-1` and the score `+Inf` / `-Inf` / `0` for a
computer win (checked first) / player win / full drawn board, and
`float64(evaluateBoard board)` at depth 0 on a non-terminal board. -/
theorem minimax_terminal (c : List Nat → Nat) (board : GameBoard) (depth : Nat)
    (alpha beta : Score) (maximizingPlayer : Bool)
    (h : depth = 0 ∨ isTerminalNode board = true) :
    minimax c depth board alpha beta maximizingPlayer =
      (-1, if checkWin board Computer then (⊤ : Score)
        else if checkWin board Player then (⊥ : Score)
        else if isBoardFull board then toScore 0
        else toScore (evaluateBoard board)) := by
  cases depth with
  | zero =>
    by_cases hT : isTerminalNode board = true
    · rw [show minimax c 0 board alpha beta maximizingPlayer =
        (if isTerminalNode board then terminalPair board
          else (-1, toScore (evaluateBoard board))) from rfl]
      rw [if_pos hT, terminalPair_eq hT]
    · have hC : checkWin board Computer = false := by
        by_contra hc
        rw [Bool.not_eq_false] at hc
        exact hT (by rw [isTerminalNode, hc]; simp)
      have hP : checkWin board Player = false := by
        by_contra hc
        rw [Bool.not_eq_false] at hc
        exact hT (by rw [isTerminalNode, hc]; simp)
      have hF : isBoardFull board = false := by
        by_contra hc
        rw [Bool.not_eq_false] at hc
        exact hT (by rw [isTerminalNode, hc]; simp)
      rw [show minimax c 0 board alpha beta maximizingPlayer =
        (if isTerminalNode board then terminalPair board
          else (-1, toScore (evaluateBoard board))) from rfl]
      simp [hT, hC, hP, hF]
  | succ d =>
    have hT : isTerminalNode board = true := by
      rcases h with h0 | hT
      · exact absurd h0 (Nat.succ_ne_zero d)
      · exact hT
    rw [show minimax c (d+1) board alpha beta maximizingPlayer =
      (if isTerminalNode board then terminalPair board
        else if maximizingPlayer then
          maxLoop (fun b a bt => minimax c d b a bt false) board (getValidColumns board)
            alpha beta ⊥
            (((getValidColumns board).getD (c (getValidColumns board)) 0 : Nat) : Int)
        else
          minLoop (fun b a bt => minimax c d b a bt true) board (getValidColumns board)
            alpha beta ⊤
            (((getValidColumns board).getD (c (getValidColumns board)) 0 : Nat) : Int))
      from rfl]
    rw [if_pos hT, terminalPair_eq hT]

/-- Witness for `minimax_terminal`: depth 0 on the empty board. -/
theorem minimax_terminal_witness :
    minimax (fun _ => 0) 0 boardEmpty ⊥ ⊤ true =
      (-1, if checkWin boardEmpty Computer then (⊤ : Score)
        else if checkWin boardEmpty Player then (⊥ : Score)
        else if isBoardFull boardEmpty then toScore 0
        else toScore (evaluateBoard boardEmpty)) :=
  minimax_terminal (fun _ => 0) boardEmpty 0 ⊥ ⊤ true (Or.inl rfl)

lemma maxLoop_column_mem (mm : GameBoard → Score → Score → Int × Score)
    (board : GameBoard) (vcs : List Nat) :
    ∀ (cols : List Nat) (alpha beta value : Score) (column : Int),
      (∀ x ∈ cols, x ∈ vcs) → (∃ n ∈ vcs, (n : Int) = column) →
      ∃ n ∈ vcs, (n : Int) = (maxLoop mm board cols alpha beta value column).1 := by
  intro cols
  induction cols with
  | nil =>
    intro alpha beta value column _ hcol
    simpa [maxLoop] using hcol
  | cons col rest ih =>
    intro alpha beta value column hcols hcol
    simp only [maxLoop]
    set s := (mm (dropPiece board col Computer) alpha beta).2 with hs
    have hcol' : ∃ n ∈ vcs, (n : Int) = (if value < s then (col : Int) else column) := by
      by_cases hvs : value < s
      · exact ⟨col, hcols col (List.mem_cons_self col rest), by rw [if_pos hvs]⟩
      · rw [if_neg hvs]
        exact hcol
    by_cases hbr : beta ≤ max alpha (if value < s then s else value)
    · rw [if_pos hbr]
      exact hcol'
    · rw [if_neg hbr]
      exact ih _ _ _ _ (fun x hx => hcols x (List.mem_cons_of_mem col hx)) hcol'

/-- C1 (amended): on a non-terminal board with at least one valid column
and positive depth, `getComputerMove` returns a column in `[0,6]` that is
a member of `getValidColumns` — for every outcome `c` of the random
tie-break (`hc` is the guarantee `rand.Intn` provides). -/
theorem getComputerMove_valid (c : List Nat → Nat) (board : GameBoard) (depth : Nat)
    (hc : ∀ l : List Nat, l ≠ [] → c l < l.length)
    (hnv : getValidColumns board ≠ [])
    (hnt : isTerminalNode board = false)
    (hd : 0 < depth) :
    (∃ n ∈ getValidColumns board, (n : Int) = getComputerMove c board depth) ∧
    0 ≤ getComputerMove c board depth ∧ getComputerMove c board depth ≤ 6 := by
  cases depth with
  | zero => omega
  | succ d =>
    have hmem0 : (getValidColumns board).getD (c (getValidColumns board)) 0
        ∈ getValidColumns board := by
      have hlt := hc _ hnv
      rw [List.getD_eq_getElem _ _ hlt]
      exact List.getElem_mem _
    have heq : getComputerMove c board (d+1) =
        (maxLoop (fun b a bt => minimax c d b a bt false) board (getValidColumns board)
          ⊥ ⊤ ⊥
          (((getValidColumns board).getD (c (getValidColumns board)) 0 : Nat) : Int)).1 := by
      rw [getComputerMove]
      simp [minimax, hnt]
    obtain ⟨n, hn, hneq⟩ := maxLoop_column_mem
      (fun b a bt => minimax c d b a bt false) board (getValidColumns board)
      (getValidColumns board) ⊥ ⊤ ⊥ _
      (fun x hx => hx) ⟨_, hmem0, rfl⟩
    have hn7 : n < 7 := (mem_getValidColumns.1 hn).1
    rw [heq]
    exact ⟨⟨n, hn, hneq⟩, by omega, by omega⟩

/-- Witness for `getComputerMove_valid`: empty board, depth 1. -/
theorem getComputerMove_valid_witness :
    0 ≤ getComputerMove (fun _ => 0) boardEmpty 1 ∧
    getComputerMove (fun _ => 0) boardEmpty 1 ≤ 6 :=
  (getComputerMove_valid (fun _ => 0) boardEmpty 1
    (fun l hl => List.length_pos.mpr hl) (by decide) (by decide) (by decide)).2

/-- Counterexample to C1 as stated: on a board where the computer has
already won, six columns are still valid, yet `getComputerMove` returns
the sentinel `-1`, which is not a valid column. -/
theorem getComputerMove_on_won_board :
    getComputerMove (fun _ => 0) boardComputerWon 5 = -1 ∧
    getValidColumns boardComputerWon = [0, 1, 2, 3, 4, 5, 6] ∧
    getComputerMove (fun _ => 0) boardComputerWon 5 < 0 := by
  refine ⟨by decide, by decide, by decide⟩

end ConnectFour
